import Mathlib

/-!
Verification of the MusicMaker step sequencer (React + Tone.js).

This file gives a shallow embedding of the sequencing core of `src/App.tsx`
(the current revision, i.e. the second document in `src/unnamed/part_000`,
whose `repeat` handler performs legato run-length inference):

* the per-channel grid store `tracks` — a JS object mapping string keys
  of the shape `noteName ++ octave ++ "-" ++ step` to booleans.  Since a
  pitch name never contains a dash, these keys are in bijection with
  `(pitch-string, step)` pairs, which is how we model them; a JS object is
  modelled as an association list whose keys are unique and whose
  `Object.keys` iteration order is the list order;
* the chord generator `addChord`;
* the per-beat subdivision map (`beatDivisions`, `toggleSplitAtPlayhead`)
  and the sub-slot positions that `renderGridRow` derives from it;
* the arrangement-length update `updateMeasures`;
* the clock-tick handler `repeat` (here `repeatStep`, `repeat` being a
  Lean tactic keyword).  The handler receives the transport position
  already converted to an absolute raw step number
  (`beats[0]*16 + beats[1]*4 + Math.round(beats[2])` in the source); the
  wall-clock `time` argument is threaded separately since it only feeds
  the audio call, never the dispatch decision.
-/

/-- `NOTE_NAMES` from the source: the 12 chromatic pitch-class names in
sharp spelling, C first. -/
def NOTE_NAMES : List String :=
  ["C", "C#", "D", "D#", "E", "F"] ++ ["F#", "G", "G#", "A", "A#", "B"]

/-- The keys of `INSTRUMENT_SETTINGS`, in object insertion order. -/
def INSTRUMENT_KEYS : List String := ["piano", "guitar", "violin", "drum"]

/-- Channels whose `INSTRUMENT_SETTINGS[...].type` is `sampler`. -/
def isSampler (inst : String) : Bool := inst == "guitar" || inst == "drum"

/-- A grid-store key: the `noteName ++ octave` part and the step index of a
`"<pitch>-<step>"` JS object key. -/
abbrev NoteKey := String × Nat

/-- One channel of the grid store (`TrackData` in the source): a JS object
modelled as an association list in insertion order. -/
abbrev TrackData := List (NoteKey × Bool)

/-- `track[key]` — reading a cell; an absent key reads as `false`. -/
def getCell : TrackData → String → Nat → Bool
  | [], _, _ => false
  | ((q, s), b) :: rest, p, st => if q = p ∧ s = st then b else getCell rest p st

/-- `obj[key] = v` on a JS object: update the existing entry in place, or
append a new one. -/
def setCell : TrackData → String → Nat → Bool → TrackData
  | [], p, st, v => [((p, st), v)]
  | ((q, s), b) :: rest, p, st, v =>
    if q = p ∧ s = st then ((q, s), v) :: rest
    else ((q, s), b) :: setCell rest p st v

theorem getCell_setCell (t : TrackData) (p : String) (st : Nat) (v : Bool)
    (q : String) (s : Nat) :
    getCell (setCell t p st v) q s = if p = q ∧ st = s then v else getCell t q s := by
  induction t with
  | nil =>
    simp only [setCell, getCell]
  | cons hd tl ih =>
    obtain ⟨⟨a, b⟩, c⟩ := hd
    by_cases h : a = p ∧ b = st
    · obtain ⟨h1, h2⟩ := h
      subst h1; subst h2
      simp only [setCell, if_pos (And.intro rfl rfl), getCell]
      split_ifs with hq <;> simp [hq]
    · simp only [setCell, if_neg h, getCell, ih]
      by_cases h2 : a = q ∧ b = s
      · obtain ⟨h3, h4⟩ := h2
        subst h3; subst h4
        have hne : ¬(p = a ∧ st = b) := fun hc => h ⟨hc.1.symm, hc.2.symm⟩
        simp [hne]
      · simp [h2]

/-- `CHORDS[selectedChord] || []` — the semitone-interval table of the
current revision (major, minor and the three sevenths), with the
`|| []` fallback for an unrecognized chord type. -/
def chordIntervals (ctype : String) : List Nat :=
  if ctype == "major" then [0, 4, 7]
  else if ctype == "minor" then [0, 3, 7]
  else if ctype == "major7" then [0, 4, 7, 11]
  else if ctype == "minor7" then [0, 3, 7, 10]
  else if ctype == "dominant7" then [0, 4, 7, 10]
  else []

/-- Helper for `NOTE_NAMES.indexOf`: first index of `root`, counting from
`i`, or `none` (the `-1` case in JS). -/
def indexOfAux : List String → String → Nat → Option Nat
  | [], _, _ => none
  | n :: rest, root, i => if n = root then some i else indexOfAux rest root (i + 1)

/-- `NOTE_NAMES.indexOf(selectedRoot)`, with `none` for `-1`. -/
def noteIndexOf (root : String) : Option Nat := indexOfAux NOTE_NAMES root 0

theorem indexOfAux_lt (l : List String) (root : String) (i j : Nat)
    (h : indexOfAux l root i = some j) : j < i + l.length := by
  induction l generalizing i with
  | nil => simp [indexOfAux] at h
  | cons hd tl ih =>
    simp only [indexOfAux] at h
    by_cases hh : hd = root
    · rw [if_pos hh] at h
      injection h with h
      subst h
      simp
    · rw [if_neg hh] at h
      have := ih (i + 1) h
      simp only [List.length_cons]
      omega

theorem noteIndexOf_lt (root : String) (ri : Nat) (h : noteIndexOf root = some ri) :
    ri < 12 := by
  have := indexOfAux_lt NOTE_NAMES root 0 ri h
  simpa [NOTE_NAMES] using this

/-- `NOTE_NAMES[noteIndex]` (always used with `noteIndex < 12`). -/
def noteNameOf (n : Nat) : String := NOTE_NAMES.getD n ""

/-- The octave of one chord tone: `selectedOctave + Math.floor((rootIndex + interval) / 12)`. -/
def toneOctave (ri oct iv : Nat) : Nat := oct + (ri + iv) / 12

/-- The pitch string of one chord tone:
`NOTE_NAMES[(rootIndex + interval) % 12] ++ String(octave + offset)`. -/
def chordTone (ri oct iv : Nat) : String :=
  noteNameOf ((ri + iv) % 12) ++ toString (toneOctave ri oct iv)

/-- The inner `chordIntervals.forEach` loop of `addChord` for one `step`:
each tone whose octave lies in 1..6 is written active, the others are
silently skipped. -/
def writeChordStep (ri oct : Nat) (ivs : List Nat) (step : Nat) (t : TrackData) : TrackData :=
  ivs.foldl (fun acc iv =>
    if 1 ≤ toneOctave ri oct iv ∧ toneOctave ri oct iv ≤ 6 then
      setCell acc (chordTone ri oct iv) step true
    else acc) t

/-- `addChord` from the source: no-op for the drum channel or an
unrecognized root; otherwise writes every in-octave-range chord tone as
active at every step in `[startStep, min (startStep + durBeats*4) (measures*16))`. -/
def addChord (inst root : String) (oct : Nat) (ctype : String)
    (startStep durBeats measures : Nat) (t : TrackData) : TrackData :=
  if inst = "drum" then t
  else
    match noteIndexOf root with
    | none => t
    | some rootIndex =>
      let intervals := chordIntervals ctype
      let endStep := min (startStep + durBeats * 4) (measures * 16)
      (List.range' startStep (endStep - startStep)).foldl
        (fun acc step => writeChordStep rootIndex oct intervals step acc) t

theorem getCell_writeChordStep (ri oct : Nat) (ivs : List Nat) (step : Nat)
    (t : TrackData) (q : String) (s : Nat) :
    getCell (writeChordStep ri oct ivs step t) q s = true ↔
      (getCell t q s = true ∨
        (s = step ∧ ∃ iv ∈ ivs, 1 ≤ toneOctave ri oct iv ∧ toneOctave ri oct iv ≤ 6 ∧
          q = chordTone ri oct iv)) := by
  induction ivs generalizing t with
  | nil => simp [writeChordStep]
  | cons iv rest ih =>
    have hstep : writeChordStep ri oct (iv :: rest) step t =
        writeChordStep ri oct rest step
          (if 1 ≤ toneOctave ri oct iv ∧ toneOctave ri oct iv ≤ 6 then
            setCell t (chordTone ri oct iv) step true
          else t) := by
      simp [writeChordStep]
    rw [hstep, ih]
    by_cases hoct : 1 ≤ toneOctave ri oct iv ∧ toneOctave ri oct iv ≤ 6
    · rw [if_pos hoct, getCell_setCell]
      by_cases hqs : chordTone ri oct iv = q ∧ step = s
      · obtain ⟨hq, hs⟩ := hqs
        constructor
        · intro _
          exact Or.inr ⟨hs.symm, iv, List.mem_cons_self _ _, hoct.1, hoct.2, hq.symm⟩
        · intro _
          simp [hq, hs]
      · rw [if_neg hqs]
        constructor
        · rintro (h | ⟨hs, iv2, hmem, h1, h2, hq⟩)
          · exact Or.inl h
          · exact Or.inr ⟨hs, iv2, List.mem_cons_of_mem _ hmem, h1, h2, hq⟩
        · rintro (h | ⟨hs, iv2, hmem, h1, h2, hq⟩)
          · exact Or.inl h
          · rcases List.mem_cons.mp hmem with hiv | hmem2
            · subst hiv
              exact absurd ⟨hq.symm, hs.symm⟩ hqs
            · exact Or.inr ⟨hs, iv2, hmem2, h1, h2, hq⟩
    · rw [if_neg hoct]
      constructor
      · rintro (h | ⟨hs, iv2, hmem, h1, h2, hq⟩)
        · exact Or.inl h
        · exact Or.inr ⟨hs, iv2, List.mem_cons_of_mem _ hmem, h1, h2, hq⟩
      · rintro (h | ⟨hs, iv2, hmem, h1, h2, hq⟩)
        · exact Or.inl h
        · rcases List.mem_cons.mp hmem with hiv | hmem2
          · subst hiv
            exact absurd ⟨h1, h2⟩ hoct
          · exact Or.inr ⟨hs, iv2, hmem2, h1, h2, hq⟩

theorem getCell_chordSteps (ri oct : Nat) (ivs : List Nat) (steps : List Nat)
    (t : TrackData) (q : String) (s : Nat) :
    getCell (steps.foldl (fun acc step => writeChordStep ri oct ivs step acc) t) q s = true ↔
      (getCell t q s = true ∨
        (s ∈ steps ∧ ∃ iv ∈ ivs, 1 ≤ toneOctave ri oct iv ∧ toneOctave ri oct iv ≤ 6 ∧
          q = chordTone ri oct iv)) := by
  induction steps generalizing t with
  | nil => simp
  | cons st rest ih =>
    rw [List.foldl_cons, ih, getCell_writeChordStep]
    constructor
    · rintro ((h | ⟨hs, htone⟩) | ⟨hmem, htone⟩)
      · exact Or.inl h
      · exact Or.inr ⟨by simp [hs], htone⟩
      · exact Or.inr ⟨List.mem_cons_of_mem _ hmem, htone⟩
    · rintro (h | ⟨hmem, htone⟩)
      · exact Or.inl (Or.inl h)
      · rcases List.mem_cons.mp hmem with hs | hmem2
        · exact Or.inl (Or.inr ⟨hs, htone⟩)
        · exact Or.inr ⟨hmem2, htone⟩

theorem getCell_addChord (inst root : String) (oct : Nat) (ctype : String)
    (startStep durBeats measures : Nat) (t : TrackData) (ri : Nat)
    (hinst : inst ≠ "drum") (hroot : noteIndexOf root = some ri)
    (q : String) (s : Nat) :
    getCell (addChord inst root oct ctype startStep durBeats measures t) q s = true ↔
      (getCell t q s = true ∨
        ((startStep ≤ s ∧ s < min (startStep + durBeats * 4) (measures * 16)) ∧
          ∃ iv ∈ chordIntervals ctype,
            1 ≤ toneOctave ri oct iv ∧ toneOctave ri oct iv ≤ 6 ∧
            q = chordTone ri oct iv)) := by
  unfold addChord
  rw [if_neg hinst, hroot]
  rw [getCell_chordSteps]
  have hmem : s ∈ List.range' startStep
      (min (startStep + durBeats * 4) (measures * 16) - startStep) ↔
      (startStep ≤ s ∧ s < min (startStep + durBeats * 4) (measures * 16)) := by
    rw [List.mem_range'_1]
    omega
  rw [hmem]

/-- One dispatched `triggerAttackRelease` command of the `repeat` handler:
the channel, the pitch string, the onset step, and the duration measured in
16th-note steps (the drum branch passes the fixed value `16n`, i.e. one
step; the melodic branch passes `Tone.Time(16n).toSeconds() * durationSteps`). -/
structure Event where
  inst : String
  pitch : String
  step : Nat
  durSteps : Nat
deriving DecidableEq, Repr

/-- The projection the determinism property talks about: the
(pitch, onset-step, duration) triple of a dispatch. -/
def eventTriple (e : Event) : String × Nat × Nat := (e.pitch, e.step, e.durSteps)

/-- The legato look-ahead loop
`while (track[noteWithOctave-nextStep]) durationSteps++; nextStep++;`
counting consecutive active cells of pitch `p` starting at step `s`.
The JS loop always terminates because consecutive `true` reads need
pairwise distinct keys of the finite object, so it performs at most
`t.length` iterations; `fuel` is always instantiated with `t.length`,
which therefore computes the exact JS count. -/
def runLen (t : TrackData) (p : String) : Nat → Nat → Nat
  | 0, _ => 0
  | fuel + 1, s => if getCell t p s then runLen t p fuel (s + 1) + 1 else 0

/-- The `Object.keys(track).forEach` body of the `repeat` handler for one
channel at the current step: fire every active cell of this step; drums
fire with the fixed one-step duration, melodic pitches are skipped when the
previous step holds the same pitch (legato continuation) and otherwise fire
with the inferred run length. -/
def dispatchChannel (inst : String) (t : TrackData) (cur : Nat) : List Event :=
  t.filterMap (fun entry =>
    let q := entry.1.1
    let s := entry.1.2
    if s = cur ∧ getCell t q s then
      if inst = "drum" then some ⟨inst, q, cur, 1⟩
      else
        if 0 < cur ∧ getCell t q (cur - 1) then none
        else some ⟨inst, q, cur, runLen t q t.length (cur + 1) + 1⟩
    else none)

/-- `playbackType === all ? Object.keys(INSTRUMENT_SETTINGS) : [selectedInstrumentRef.current]`. -/
def instrumentList (modeAll : Bool) (sel : String) : List String :=
  if modeAll then INSTRUMENT_KEYS else [sel]

/-- The pieces of component state the `repeat` handler reads (besides
`lastPlayedStep`, which it also writes and which is threaded explicitly). -/
structure Env where
  tracks : String → TrackData
  measures : Nat
  modeAll : Bool
  sel : String
  samplesLoaded : Bool

/-- One full grid scan of the `repeat` handler at current step `cur`:
the `instrumentKeys.forEach` loop.  A channel is skipped when no synth
exists for it (`synth && track`) or when it is a sampler whose samples have
not finished loading. -/
def dispatchStep (env : Env) (cur : Nat) : List Event :=
  (instrumentList env.modeAll env.sel).flatMap (fun inst =>
    if INSTRUMENT_KEYS.contains inst then
      if isSampler inst ∧ env.samplesLoaded = false then []
      else dispatchChannel inst (env.tracks inst) cur
    else [])

/-- The `repeat` tick handler.  `stepPos` is the transport position already
converted to a raw absolute step
(`beats[0]*16 + beats[1]*4 + Math.round(beats[2])`); `last` is
`lastPlayedStep.current` (an `Int` because `startPlayback` initializes it
to `currentStep - 1`, i.e. `-1` at the origin).  Returns the updated
`lastPlayedStep` and the dispatched events; when the computed current step
equals `last` nothing is dispatched. -/
def repeatStep (env : Env) (last : Int) (stepPos : Nat) : Int × List Event :=
  let totalSteps := env.measures * 16
  let currentStepPos := stepPos % totalSteps
  if (currentStepPos : Int) = last then (last, [])
  else ((currentStepPos : Int), dispatchStep env currentStepPos)

/-- Repeated invocation of the tick handler over a list of
(raw step position, wall-clock time) ticks, accumulating every dispatched
event tagged with the wall-clock time of its tick. -/
def runTicks (env : Env) : Int → List (Nat × Nat) → Int × List (Event × Nat)
  | last, [] => (last, [])
  | last, (pos, tm) :: rest =>
    let r := repeatStep env last pos
    let rr := runTicks env r.1 rest
    (rr.1, r.2.map (fun e => (e, tm)) ++ rr.2)

/-- The component state touched by `updateMeasures`, `toggleSplitAtPlayhead`
and the grid-preservation claims: the per-channel grid store, the
arrangement length, the cursor and the per-beat subdivision map. -/
structure AppState where
  tracks : String → TrackData
  measures : Nat
  currentStep : Nat
  beatDivisions : List (Nat × Nat)

/-- `updateMeasures` from the source: clamp the requested count into
`[MIN_MEASURES, MAX_MEASURES] = [1, 16]` and reset the cursor to 0 when it
falls at or beyond the new bound.  Nothing else is touched. -/
def updateMeasures (newMeasures : Int) (st : AppState) : AppState :=
  let clampedMeasures := min (max newMeasures 1) 16
  { st with
    measures := clampedMeasures.toNat
    currentStep :=
      if clampedMeasures * 16 ≤ (st.currentStep : Int) then 0 else st.currentStep }

/-- Association-list lookup on the `beatDivisions` JS object. -/
def lookupDiv : List (Nat × Nat) → Nat → Option Nat
  | [], _ => none
  | (k, v) :: rest, b => if k = b then some v else lookupDiv rest b

/-- `beatDivisions[b] || 1`: the subdivision factor of beat `b`, defaulting
to 1 for an absent (or zero, which `||` treats as falsy) entry. -/
def divisionOf (bd : List (Nat × Nat)) (b : Nat) : Nat :=
  match lookupDiv bd b with
  | some d => if d = 0 then 1 else d
  | none => 1

/-- The object-spread update `{ ...prev, [b]: v }`. -/
def setDiv : List (Nat × Nat) → Nat → Nat → List (Nat × Nat)
  | [], b, v => [(b, v)]
  | (k, w) :: rest, b, v =>
    if k = b then (k, v) :: rest else (k, w) :: setDiv rest b v

/-- The 1 → 2 → 4 → 1 cycle of `toggleSplitAtPlayhead`. -/
def nextDiv (d : Nat) : Nat := if d = 1 then 2 else if d = 2 then 4 else 1

/-- `toggleSplitAtPlayhead`: cycle the subdivision of the beat under the
playhead (`Math.floor(currentStep / 4)`). -/
def toggleSplitAtPlayhead (bd : List (Nat × Nat)) (currentStep : Nat) :
    List (Nat × Nat) :=
  let currentBeatIndex := currentStep / 4
  setDiv bd currentBeatIndex (nextDiv (divisionOf bd currentBeatIndex))

/-- The ordered absolute sub-slot start positions of beat `b`, as computed
by the inner cell loop of `renderGridRow`:
`absoluteStep = b * 4 + i * stepSize` with `stepSize = 4 / division` for
`i` in `[0, division)`. -/
def stepPositionsOf (bd : List (Nat × Nat)) (b : Nat) : List Nat :=
  (List.range (divisionOf bd b)).map (fun i => b * 4 + i * (4 / divisionOf bd b))

theorem divisionOf_setDiv_self (bd : List (Nat × Nat)) (k v : Nat) :
    divisionOf (setDiv bd k v) k = if v = 0 then 1 else v := by
  induction bd with
  | nil => simp [setDiv, divisionOf, lookupDiv]
  | cons hd tl ih =>
    obtain ⟨a, w⟩ := hd
    by_cases h : a = k
    · subst h
      simp [setDiv, divisionOf, lookupDiv]
    · simp only [setDiv, if_neg h, divisionOf, lookupDiv] at *
      exact ih

theorem divisionOf_setDiv_ne (bd : List (Nat × Nat)) (k v b : Nat) (h : b ≠ k) :
    divisionOf (setDiv bd k v) b = divisionOf bd b := by
  induction bd with
  | nil =>
    simp only [setDiv, divisionOf, lookupDiv]
    rw [if_neg (fun hh => h hh.symm)]
  | cons hd tl ih =>
    obtain ⟨a, w⟩ := hd
    by_cases ha : a = k
    · subst ha
      simp only [setDiv, if_pos rfl, divisionOf, lookupDiv]
      rw [if_neg (fun hh => h hh.symm), if_neg (fun hh => h hh.symm)]
    · simp only [setDiv, if_neg ha, divisionOf, lookupDiv] at *
      by_cases hb : a = b
      · rw [if_pos hb, if_pos hb]
      · rw [if_neg hb, if_neg hb]
        exact ih

/-- Claim C8: `updateMeasures` clamps the requested measure count into
1..16; when the cursor is at or beyond the new bound `clampedMeasures * 16`
it is reset to step 0, and when it is still within the bound it is left
unchanged. -/
theorem updateMeasures_clamps (nm : Int) (st : AppState) :
    1 ≤ (updateMeasures nm st).measures ∧
    (updateMeasures nm st).measures ≤ 16 ∧
    ((updateMeasures nm st).measures * 16 ≤ st.currentStep →
      (updateMeasures nm st).currentStep = 0) ∧
    (st.currentStep < (updateMeasures nm st).measures * 16 →
      (updateMeasures nm st).currentStep = st.currentStep) := by
  simp only [updateMeasures]
  refine ⟨by omega, by omega, ?_, ?_⟩
  · intro h
    split_ifs with hc
    · rfl
    · omega
  · intro h
    split_ifs with hc
    · omega
    · rfl

/-- Concrete instances of C8: shrinking to 1 measure with the cursor at
step 50 resets the cursor; growing (clamped to 16) with the cursor at step
100 leaves it alone. -/
theorem updateMeasures_clamps_witness :
    (updateMeasures 0 ⟨fun _ => [], 4, 50, []⟩).currentStep = 0 ∧
    (updateMeasures 20 ⟨fun _ => [], 4, 100, []⟩).currentStep = 100 :=
  ⟨(updateMeasures_clamps 0 ⟨fun _ => [], 4, 50, []⟩).2.2.1 (by decide),
   (updateMeasures_clamps 20 ⟨fun _ => [], 4, 100, []⟩).2.2.2 (by decide)⟩

/-- Claim C10: `updateMeasures` never removes or modifies a stored grid
cell — for every channel and cell key the grid store reads the same after
the call as before, even when the measure count shrinks below the step
index of previously written cells. -/
theorem updateMeasures_preserves_tracks (nm : Int) (st : AppState)
    (inst q : String) (s : Nat) :
    getCell ((updateMeasures nm st).tracks inst) q s = getCell (st.tracks inst) q s :=
  rfl

/-- Claim C9: with beat 2 at the default division 1 its sub-slot positions
are `[8]`; pressing Split-at-Playhead twice with the playhead inside beat 2
(steps 8..11) sets the division to 4 and the positions become
`[8, 9, 10, 11]`, while every other beat's positions are unchanged; and in
general a beat `b` with division `d` has positions `b*4 + i*(4/d)` for `i`
in `[0, d)`. -/
theorem split_beat_positions (bd : List (Nat × Nat)) (cs : Nat)
    (h8 : 8 ≤ cs) (h12 : cs < 12) (hdiv : divisionOf bd 2 = 1) :
    stepPositionsOf bd 2 = [8] ∧
    stepPositionsOf (toggleSplitAtPlayhead (toggleSplitAtPlayhead bd cs) cs) 2 =
      [8, 9, 10, 11] ∧
    (∀ b, b ≠ 2 →
      stepPositionsOf (toggleSplitAtPlayhead (toggleSplitAtPlayhead bd cs) cs) b =
        stepPositionsOf bd b) ∧
    (∀ bd2 b, stepPositionsOf bd2 b =
      (List.range (divisionOf bd2 b)).map (fun i => b * 4 + i * (4 / divisionOf bd2 b))) := by
  have hbeat : cs / 4 = 2 := by omega
  have htog : ∀ b2, toggleSplitAtPlayhead b2 cs = setDiv b2 2 (nextDiv (divisionOf b2 2)) := by
    intro b2
    show setDiv b2 (cs / 4) (nextDiv (divisionOf b2 (cs / 4))) = _
    rw [hbeat]
  have hfirst : divisionOf (toggleSplitAtPlayhead bd cs) 2 = 2 := by
    rw [htog, hdiv, divisionOf_setDiv_self]
    rfl
  have hsecond :
      divisionOf (toggleSplitAtPlayhead (toggleSplitAtPlayhead bd cs) cs) 2 = 4 := by
    rw [htog (toggleSplitAtPlayhead bd cs), hfirst, divisionOf_setDiv_self]
    rfl
  refine ⟨?_, ?_, ?_, fun bd2 b => rfl⟩
  · unfold stepPositionsOf
    rw [hdiv]
    rfl
  · unfold stepPositionsOf
    rw [hsecond]
    rfl
  · intro b hb
    unfold stepPositionsOf
    have hkeep :
        divisionOf (toggleSplitAtPlayhead (toggleSplitAtPlayhead bd cs) cs) b =
          divisionOf bd b := by
      rw [htog (toggleSplitAtPlayhead bd cs), htog bd]
      rw [divisionOf_setDiv_ne _ _ _ _ hb, divisionOf_setDiv_ne _ _ _ _ hb]
    rw [hkeep]

/-- Concrete instance of C9: empty subdivision map, playhead at step 8. -/
theorem split_beat_positions_witness :
    stepPositionsOf [] 2 = [8] ∧
    stepPositionsOf (toggleSplitAtPlayhead (toggleSplitAtPlayhead [] 8) 8) 2 =
      [8, 9, 10, 11] ∧
    stepPositionsOf (toggleSplitAtPlayhead (toggleSplitAtPlayhead [] 8) 8) 5 =
      stepPositionsOf [] 5 :=
  ⟨(split_beat_positions [] 8 (by decide) (by decide) rfl).1,
   (split_beat_positions [] 8 (by decide) (by decide) rfl).2.1,
   (split_beat_positions [] 8 (by decide) (by decide) rfl).2.2.1 5 (by decide)⟩

/-- Claim C2: calling the tick handler a second time while the transport
still reports the same position dispatches nothing: after the first call
`lastPlayedStep` equals the computed current step, so the guard fires.
(`1 ≤ measures` is the invariant the config surface guarantees; it keeps
the JS modulo well defined.) -/
theorem dispatch_idempotent (env : Env) (last : Int) (stepPos : Nat)
    (hm : 1 ≤ env.measures) :
    (repeatStep env (repeatStep env last stepPos).1 stepPos).2 = [] := by
  unfold repeatStep
  by_cases h : ((stepPos % (env.measures * 16) : Nat) : Int) = last
  · rw [if_pos h]
    simp only
    rw [if_pos h]
  · rw [if_neg h]
    simp

/-- Concrete instance of C2: a grid with one active cell at the current
step; the double call still dispatches nothing on the second invocation. -/
def demoEnv : Env :=
  ⟨fun i => if i = "piano" then [(("C4", 5), true), (("E4", 6), true)] else [],
    1, false, "piano", true⟩

theorem dispatch_idempotent_witness :
    (repeatStep demoEnv (repeatStep demoEnv (-1) 5).1 5).2 = [] :=
  dispatch_idempotent demoEnv (-1) 5 (by decide)

/-- Claim C1: determinism of playback.  For a fixed grid environment and a
fixed sequence of transport step positions, the sequence of dispatched
(pitch, onset-step, duration) triples is the same on every pass: it does
not depend on the wall-clock times at which the ticks fire, so replaying
the same tick positions twice yields identical triples. -/
theorem repeat_deterministic (env : Env) (last : Int)
    (ticks1 ticks2 : List (Nat × Nat))
    (hpos : ticks1.map Prod.fst = ticks2.map Prod.fst) :
    (runTicks env last ticks1).2.map (fun et => eventTriple et.1) =
      (runTicks env last ticks2).2.map (fun et => eventTriple et.1) := by
  induction ticks1 generalizing last ticks2 with
  | nil =>
    cases ticks2 with
    | nil => rfl
    | cons h2 t2 => simp at hpos
  | cons h1 t1 ih =>
    cases ticks2 with
    | nil => simp at hpos
    | cons h2 t2 =>
      obtain ⟨p1, tm1⟩ := h1
      obtain ⟨p2, tm2⟩ := h2
      simp only [List.map_cons, List.cons.injEq] at hpos
      obtain ⟨hp, ht⟩ := hpos
      subst hp
      simp only [runTicks, List.map_append, List.map_map]
      rw [ih _ _ ht]
      rfl

/-- Concrete instance of C1: the same two tick positions fired at
different wall-clock times produce the same triples. -/
theorem repeat_deterministic_witness :
    (runTicks demoEnv (-1) [(5, 0), (6, 1)]).2.map (fun et => eventTriple et.1) =
      (runTicks demoEnv (-1) [(5, 3), (6, 9)]).2.map (fun et => eventTriple et.1) :=
  repeat_deterministic demoEnv (-1) [(5, 0), (6, 1)] [(5, 3), (6, 9)] rfl

/-- A track whose only entries are pitch `p` active at steps 4, 5 and 6. -/
def legatoTrack (p : String) : TrackData :=
  [((p, 4), true), ((p, 5), true), ((p, 6), true)]

/-- Single-channel playback of `inst` over that track. -/
def legatoEnv (p inst : String) (measures : Nat) : Env :=
  ⟨fun i => if i = inst then legatoTrack p else [], measures, false, inst, true⟩

/-- Claim C3: on a melodic channel whose track has pitch `p` active at
exactly steps 4, 5 and 6, playing through those steps (ticks at positions
4, 5, 6, entered from step 3) dispatches exactly one trigger: pitch `p` at
step 4 with duration 3 step-lengths, and nothing at steps 5 and 6. -/
theorem legato_single_trigger (p inst : String) (measures : Nat)
    (hinst : inst = "piano" ∨ inst = "guitar" ∨ inst = "violin")
    (hm : 1 ≤ measures) (t4 t5 t6 : Nat) :
    (runTicks (legatoEnv p inst measures) 3 [(4, t4), (5, t5), (6, t6)]).2.map
        (fun et => eventTriple et.1) = [(p, 4, 3)] := by
  have h4 : 4 % (measures * 16) = 4 := Nat.mod_eq_of_lt (by omega)
  have h5 : 5 % (measures * 16) = 5 := Nat.mod_eq_of_lt (by omega)
  have h6 : 6 % (measures * 16) = 6 := Nat.mod_eq_of_lt (by omega)
  rcases hinst with h | h | h <;> subst h <;>
    simp [runTicks, repeatStep, h4, h5, h6, dispatchStep, instrumentList,
      INSTRUMENT_KEYS, isSampler, legatoEnv, legatoTrack, dispatchChannel,
      getCell, runLen, eventTriple]

/-- Concrete instance of C3. -/
theorem legato_single_trigger_witness :
    (runTicks (legatoEnv "C4" "piano" 4) 3 [(4, 0), (5, 0), (6, 0)]).2.map
        (fun et => eventTriple et.1) = [("C4", 4, 3)] :=
  legato_single_trigger "C4" "piano" 4 (Or.inl rfl) (by decide) 0 0 0

/-- A track with pitch C4 active at steps 14, 15 and 16 — step 16 lies at
the arrangement bound when `measures = 1` (valid steps are 0..15), as
happens after shrinking the arrangement while cells are retained. -/
def overrunTrack : TrackData :=
  [(("C4", 14), true), (("C4", 15), true), (("C4", 16), true)]

/-- One-measure single-channel playback over that track. -/
def overrunEnv : Env :=
  ⟨fun i => if i = "piano" then overrunTrack else [], 1, false, "piano", true⟩

/-- Counterexample to claim C4 as stated: with `measures = 1` (bound
`measures * 16 = 16`) and C4 active at steps 14, 15, 16, the tick at step
14 dispatches a note of duration 3 steps, i.e. the counted run covers step
16, which is at the arrangement bound — the look-ahead `while` loop of
`repeat` has no bound check and walks into out-of-range cells. -/
theorem legato_overruns_bound :
    (repeatStep overrunEnv 13 14).2 = [⟨"piano", "C4", 14, 3⟩] ∧
    overrunEnv.measures * 16 < 14 + 3 := by
  constructor
  · rfl
  · decide

theorem runLen_le_of_inactive (t : TrackData) (p : String) (fuel s m : Nat)
    (hs : s ≤ m) (hmf : getCell t p m = false) : s + runLen t p fuel s ≤ m := by
  induction fuel generalizing s with
  | zero => simpa [runLen] using hs
  | succ n ih =>
    rw [runLen]
    by_cases h : getCell t p s = true
    · rw [if_pos h]
      have hne : s ≠ m := by
        intro hh
        rw [hh, hmf] at h
        simp at h
      have := ih (s + 1) (by omega)
      omega
    · rw [if_neg h]
      omega

theorem repeatStep_snd (env : Env) (last : Int) (stepPos : Nat) :
    (repeatStep env last stepPos).2 = [] ∨
    (repeatStep env last stepPos).2 = dispatchStep env (stepPos % (env.measures * 16)) := by
  by_cases h : ((stepPos % (env.measures * 16) : Nat) : Int) = last
  · refine Or.inl ?_
    show (if ((stepPos % (env.measures * 16) : Nat) : Int) = last
        then (last, ([] : List Event))
        else (((stepPos % (env.measures * 16) : Nat) : Int),
          dispatchStep env (stepPos % (env.measures * 16)))).2 = []
    rw [if_pos h]
  · refine Or.inr ?_
    show (if ((stepPos % (env.measures * 16) : Nat) : Int) = last
        then (last, ([] : List Event))
        else (((stepPos % (env.measures * 16) : Nat) : Int),
          dispatchStep env (stepPos % (env.measures * 16)))).2 =
      dispatchStep env (stepPos % (env.measures * 16))
    rw [if_neg h]

theorem dispatchChannel_mem (inst : String) (t : TrackData) (cur : Nat) (e : Event)
    (he : e ∈ dispatchChannel inst t cur) :
    e.step = cur ∧ getCell t e.pitch cur = true ∧
      (e.durSteps = 1 ∨ e.durSteps = runLen t e.pitch t.length (cur + 1) + 1) := by
  unfold dispatchChannel at he
  rw [List.mem_filterMap] at he
  obtain ⟨entry, hmem, hfe⟩ := he
  simp only at hfe
  by_cases hc : entry.1.2 = cur ∧ getCell t entry.1.1 entry.1.2 = true
  · rw [if_pos hc] at hfe
    by_cases hdrum : inst = "drum"
    · rw [if_pos hdrum] at hfe
      rw [Option.some_inj] at hfe
      subst hfe
      exact ⟨rfl, by rw [← hc.1]; exact hc.2, Or.inl rfl⟩
    · rw [if_neg hdrum] at hfe
      by_cases hcont : 0 < cur ∧ getCell t entry.1.1 (cur - 1) = true
      · rw [if_pos hcont] at hfe
        simp at hfe
      · rw [if_neg hcont] at hfe
        rw [Option.some_inj] at hfe
        subst hfe
        exact ⟨rfl, by rw [← hc.1]; exact hc.2, Or.inr rfl⟩
  · rw [if_neg hc] at hfe
    simp at hfe

/-- Claim C4, amended: the legato run-length scan uses grid step adjacency
only and stops exactly at the first inactive or absent consecutive cell
(the mapping being finite, it always terminates); it does not stop at the
arrangement bound.  Whenever every cell at an index at or beyond
`measures * 16` is inactive (the only way cells beyond the bound arise is
retention across an arrangement shrink), no dispatched note extends past
the bound; with active out-of-range cells adjacent to a run the dispatched
duration does extend past it, as `legato_overruns_bound` shows. -/
theorem legato_run_stops_at_inactive (env : Env) (last : Int) (stepPos : Nat)
    (hb : ∀ inst q s, env.measures * 16 ≤ s → getCell (env.tracks inst) q s = false)
    (e : Event) (he : e ∈ (repeatStep env last stepPos).2) :
    e.step + e.durSteps ≤ env.measures * 16 := by
  rcases repeatStep_snd env last stepPos with hs | hs
  · rw [hs] at he
    simp at he
  · rw [hs] at he
    unfold dispatchStep at he
    rw [List.mem_flatMap] at he
    obtain ⟨inst, _, he⟩ := he
    split_ifs at he with hk hsl
    · simp at he
    · have hchar := dispatchChannel_mem inst (env.tracks inst)
        (stepPos % (env.measures * 16)) e he
      obtain ⟨hstep, hact, hdur⟩ := hchar
      have hcur : stepPos % (env.measures * 16) < env.measures * 16 := by
        by_contra hlt
        have := hb inst e.pitch (stepPos % (env.measures * 16)) (by omega)
        rw [this] at hact
        simp at hact
      have hbound := hb inst e.pitch (env.measures * 16) (le_refl _)
      have hrun := runLen_le_of_inactive (env.tracks inst) e.pitch
        (env.tracks inst).length (stepPos % (env.measures * 16) + 1)
        (env.measures * 16) (by omega) hbound
      rcases hdur with hd | hd <;> omega
    · simp at he

/-- Concrete instance of the amended C4: with C4 active at steps 14 and 15
only (all cells below the bound 16), the note dispatched at step 14 has
duration 2 and ends exactly at the bound. -/
def boundedEnv : Env :=
  ⟨fun i => if i = "piano" then [(("C4", 14), true), (("C4", 15), true)] else [],
    1, false, "piano", true⟩

theorem legato_run_stops_at_inactive_witness :
    (Event.mk "piano" "C4" 14 2).step + (Event.mk "piano" "C4" 14 2).durSteps ≤
      boundedEnv.measures * 16 :=
  legato_run_stops_at_inactive boundedEnv 13 14
    (by
      intro inst q s hs
      simp only [boundedEnv] at hs ⊢
      split_ifs with h
      · simp only [getCell]
        split_ifs with h1 h2
        · exact absurd h1.2 (by omega)
        · exact absurd h2.2 (by omega)
        · rfl
      · rfl)
    ⟨"piano", "C4", 14, 2⟩ (by decide)

/-- Claim C6: for every root, octave, chord type, start step and duration
(on a melodic channel with a recognized root — otherwise `addChord` writes
nothing at all, see `chord_silent_failure`), a cell is active after
`addChord` exactly when it was active before, or it lies at a step in
`[start, min (start + duration*4) (measures*16))` and its pitch is a chord
tone whose computed octave lies in 1..6; chord tones outside that octave
range are silently skipped while the remaining tones are still written. -/
theorem chord_write_bounds (inst root : String) (oct : Nat) (ctype : String)
    (startStep durBeats measures : Nat) (t : TrackData) (ri : Nat)
    (hinst : inst ≠ "drum") (hroot : noteIndexOf root = some ri)
    (q : String) (s : Nat) :
    getCell (addChord inst root oct ctype startStep durBeats measures t) q s = true ↔
      (getCell t q s = true ∨
        ((startStep ≤ s ∧ s < min (startStep + durBeats * 4) (measures * 16)) ∧
          ∃ iv ∈ chordIntervals ctype,
            1 ≤ toneOctave ri oct iv ∧ toneOctave ri oct iv ≤ 6 ∧
            q = chordTone ri oct iv)) :=
  getCell_addChord inst root oct ctype startStep durBeats measures t ri hinst hroot q s

/-- Concrete instance of C6: a C-major chord of one beat at step 0 on one
measure activates G4 at step 3. -/
theorem chord_write_bounds_witness :
    getCell (addChord "piano" "C" 4 "major" 0 1 1 []) "G4" 3 = true :=
  (chord_write_bounds "piano" "C" 4 "major" 0 1 1 [] 0 (by decide) rfl "G4" 3).mpr
    (Or.inr ⟨⟨by decide, by decide⟩, 7, by decide, by decide, by decide, by decide⟩)

/-- Claim C5: `addChord` with root C, octave 4, type major, start step 0
and duration 1 beat on a melodic channel of an arrangement with at least
one measure writes, into an empty track, active cells at exactly the steps
in `[0, 4)` for exactly the pitches C4, E4 and G4, and nothing else. -/
theorem chord_c_major_cells (measures : Nat) (hm : 1 ≤ measures)
    (q : String) (s : Nat) :
    getCell (addChord "piano" "C" 4 "major" 0 1 measures []) q s = true ↔
      ((q = "C4" ∨ q = "E4" ∨ q = "G4") ∧ s < 4) := by
  rw [getCell_addChord "piano" "C" 4 "major" 0 1 measures [] 0 (by decide) rfl q s]
  have hmin : min (0 + 1 * 4) (measures * 16) = 4 := by omega
  rw [hmin]
  constructor
  · rintro (h | ⟨⟨h0, h4⟩, iv, hmem, ho1, ho2, hq⟩)
    · exact absurd h (by simp [getCell])
    · have hms : iv = 0 ∨ iv = 4 ∨ iv = 7 := by
        simpa [chordIntervals] using hmem
      rcases hms with h | h | h <;> subst h
      · exact ⟨Or.inl hq, h4⟩
      · exact ⟨Or.inr (Or.inl hq), h4⟩
      · exact ⟨Or.inr (Or.inr hq), h4⟩
  · rintro ⟨hq, hs⟩
    refine Or.inr ⟨⟨Nat.zero_le s, hs⟩, ?_⟩
    rcases hq with h | h | h
    · exact ⟨0, by decide, by decide, by decide, by rw [h]; decide⟩
    · exact ⟨4, by decide, by decide, by decide, by rw [h]; decide⟩
    · exact ⟨7, by decide, by decide, by decide, by rw [h]; decide⟩

/-- Concrete instance of C5. -/
theorem chord_c_major_cells_witness :
    getCell (addChord "piano" "C" 4 "major" 0 1 1 []) "E4" 2 = true ↔
      (("E4" = "C4" ∨ "E4" = "E4" ∨ "E4" = "G4") ∧ 2 < 4) :=
  chord_c_major_cells 1 (by decide) "E4" 2

/-- Claim C7: `addChord` leaves the track untouched exactly when the
selected channel is the percussion channel (`drum`) or the root is not one
of the 12 recognized pitch-class names; on a melodic channel with a
recognized root, a recognized chord type and UI-valid octave, cursor and
duration it proceeds to write — in particular the root tone itself becomes
active at the start step. -/
theorem chord_silent_failure (inst root ctype : String)
    (oct startStep durBeats measures : Nat) (t : TrackData) :
    ((inst = "drum" ∨ noteIndexOf root = none) →
      addChord inst root oct ctype startStep durBeats measures t = t) ∧
    (∀ ri, inst ≠ "drum" → noteIndexOf root = some ri →
      ctype ∈ ["major", "minor", "major7", "minor7", "dominant7"] →
      1 ≤ oct → oct ≤ 6 → startStep < measures * 16 → 1 ≤ durBeats →
      getCell (addChord inst root oct ctype startStep durBeats measures t)
        (chordTone ri oct 0) startStep = true) := by
  constructor
  · rintro (h | h)
    · unfold addChord
      rw [if_pos h]
    · unfold addChord
      split_ifs with hd
      · rfl
      · rw [h]
  · intro ri hinst hroot hctype h1 h6 hstart hdur
    have hri : ri < 12 := noteIndexOf_lt root ri hroot
    have hoct : toneOctave ri oct 0 = oct := by
      unfold toneOctave
      omega
    have h0mem : (0 : Nat) ∈ chordIntervals ctype := by
      have h2 := hctype
      simp only [List.mem_cons, List.not_mem_nil, or_false] at h2
      rcases h2 with h | h | h | h | h <;> subst h <;> decide
    rw [getCell_addChord inst root oct ctype startStep durBeats measures t ri hinst hroot]
    refine Or.inr ⟨⟨le_refl _, ?_⟩, 0, h0mem, ?_, ?_, rfl⟩
    · omega
    · rw [hoct]
      exact h1
    · rw [hoct]
      exact h6

/-- Concrete instances of C7: the drum channel is a no-op; the piano
channel writes the root tone C4 at the start step. -/
theorem chord_silent_failure_witness :
    addChord "drum" "C" 4 "major" 0 1 1 [] = [] ∧
    getCell (addChord "piano" "C" 4 "major" 0 1 1 []) (chordTone 0 4 0) 0 = true :=
  ⟨(chord_silent_failure "drum" "C" "major" 4 0 1 1 []).1 (Or.inl rfl),
   (chord_silent_failure "piano" "C" "major" 4 0 1 1 []).2 0 (by decide) rfl
     (by decide) (by decide) (by decide) (by decide) (by decide)⟩
